import Mathlib

/-!
Verification of the fastbrew repository against its specification.

Each Go function named in the claims is shallowly embedded as an executable
Lean definition translated from the source file given in the comment above
it.  IO effects (file system, clock, HTTP) are made explicit: the clock is a
`now : Nat` parameter, file contents and directory listings are parameters,
and in-place mutation of a Go struct through a pointer is modelled by
returning the updated record next to the error value.
-/

namespace FastBrew

/-! ## Resume state machine (internal/resume/state.go) -/

/-- `DownloadState` from internal/resume/state.go (iota enum
pending / in_progress / complete / failed). -/
inductive DownloadState where
  | pending
  | inProgress
  | complete
  | failed
deriving DecidableEq, Repr, Fintype

/-- `DownloadState.String()` from internal/resume/state.go.  The Go default
branch returning "unknown" is unreachable for the four enum values. -/
def DownloadState.toString : DownloadState → String
  | .pending => "pending"
  | .inProgress => "in_progress"
  | .complete => "complete"
  | .failed => "failed"

/-- The `validTransitions` map literal from internal/resume/state.go.
All four states are keys of the Go map, so the `exists` test in
`ValidateStateTransition` always succeeds; the map is embedded as a total
function. -/
def validTransitions : DownloadState → List DownloadState
  | .pending => [.inProgress, .failed]
  | .inProgress => [.complete, .failed, .pending]
  | .complete => []
  | .failed => [.pending, .inProgress]

/-- `ValidateStateTransition` from internal/resume/state.go lines 54-71. -/
def ValidateStateTransition (fromS toS : DownloadState) : Except String Unit :=
  if fromS = toS then .ok ()
  else if toS ∈ validTransitions fromS then .ok ()
  else .error ("invalid state transition from " ++ fromS.toString ++ " to " ++ toS.toString)

/-- `CanResume` from internal/resume/state.go. -/
def CanResume (state : DownloadState) : Bool :=
  state = DownloadState.failed || state = DownloadState.pending

/-! ## Partial download records (internal/resume/resume.go) -/

/-- `StateTransition` from internal/resume/resume.go; `time.Time` is
modelled as `Nat`. -/
structure StateTransition where
  fromState : String
  toState : String
  timestamp : Nat
deriving DecidableEq, Repr

/-- `PartialDownload` from internal/resume/resume.go. -/
structure PartialDownload where
  url : String
  localPath : String
  totalSize : Int
  downloadedBytes : Int
  checksum : String
  lastModified : String
  etag : String
  state : DownloadState
  stateHistory : List StateTransition
  createdAt : Nat
  updatedAt : Nat
deriving DecidableEq, Repr

/-- `PartialDownload.UpdateState` from internal/resume/resume.go lines
77-93.  The Go method mutates the record through a receiver pointer and
returns an error; both effects are returned here as a pair, where a `some`
error is paired with the untouched record (the Go method returns before any
mutation when validation fails). -/
def PartialDownload.updateState (pd : PartialDownload) (newState : DownloadState)
    (now : Nat) : Option String × PartialDownload :=
  match ValidateStateTransition pd.state newState with
  | .error e => (some e, pd)
  | .ok _ =>
      (none,
        { pd with
          stateHistory := pd.stateHistory ++ [⟨pd.state.toString, newState.toString, now⟩],
          state := newState,
          updatedAt := now })

/-- Comparator definition for C1, written from the spec's state-machine
listing (spec.md §4.5): Pending → InProgress | Failed; InProgress →
Complete | Failed | Pending; Failed → Pending | InProgress; Complete is
terminal. -/
def specStateEdge : DownloadState → DownloadState → Bool
  | .pending, .inProgress => true
  | .pending, .failed => true
  | .inProgress, .complete => true
  | .inProgress, .failed => true
  | .inProgress, .pending => true
  | .failed, .pending => true
  | .failed, .inProgress => true
  | _, _ => false

/-! ## Download completion (internal/brew/bottle.go lines 255-276) -/

/-- The observable outcome of the end-of-stream phase of
`DownloadWithProgress`: the in-memory sidecar record, whether the
destination file still exists, the sidecar file content on disk, and the
returned error. -/
structure FinishOutcome where
  memPd : Option PartialDownload
  destExists : Bool
  sidecarFile : Option PartialDownload
  result : Except String Unit
deriving Repr

/-- The tail of `DownloadWithProgress` (internal/brew/bottle.go lines
255-276), entered after the read loop hits EOF.  `checksumOk` is the result
of `verifyChecksum(dest, expectedSHA)` (SHA-256 of the destination versus
the expected digest); `downloaded` is the byte counter of the loop;
`destExists0` / `sidecarFile0` are the file-system facts at entry.
`rm.Save` rewrites the sidecar file and stamps `UpdatedAt`; `rm.Delete`
removes the sidecar file; `os.Remove(dest)` removes the destination.
The error results of the two unchecked `pd.UpdateState` calls are
discarded exactly as in the source. -/
def finishDownload (pd : Option PartialDownload) (downloaded : Int) (checksumOk : Bool)
    (now : Nat) (destExists0 : Bool) (sidecarFile0 : Option PartialDownload) : FinishOutcome :=
  if checksumOk = false then
    match pd with
    | some p =>
        let p1 := (p.updateState DownloadState.failed now).2
        let p2 := { p1 with updatedAt := now }
        { memPd := some p2, destExists := false, sidecarFile := some p2,
          result := .error "checksum mismatch" }
    | none =>
        { memPd := none, destExists := false, sidecarFile := sidecarFile0,
          result := .error "checksum mismatch" }
  else
    match pd with
    | some p =>
        let p1 := { p with downloadedBytes := downloaded }
        let p2 := (p1.updateState DownloadState.complete now).2
        { memPd := some p2, destExists := destExists0, sidecarFile := none,
          result := .ok () }
    | none =>
        { memPd := none, destExists := destExists0, sidecarFile := sidecarFile0,
          result := .ok () }

/-! ## Concrete records used by witnesses -/

/-- A concrete sidecar record in the pending state. -/
def pdPending : PartialDownload :=
  { url := "https://example.org/a.bottle", localPath := "/tmp/a.bottle", totalSize := 10,
    downloadedBytes := 0, checksum := "", lastModified := "", etag := "",
    state := .pending, stateHistory := [], createdAt := 0, updatedAt := 0 }

/-- A concrete sidecar record in the in-progress state. -/
def pdInProgress : PartialDownload :=
  { pdPending with state := .inProgress }

/-! ## C1: accepted transitions versus the spec's state machine -/

/-- C1 counterexample: `ValidateStateTransition` accepts the
Complete → Complete transition (the `from == to` shortcut at the top of the
function), yet the spec's machine gives Complete no outgoing transitions,
so acceptance is not exactly the edge relation. -/
theorem c1_counterexample_self_loop :
    ValidateStateTransition DownloadState.complete DownloadState.complete = .ok () ∧
    specStateEdge DownloadState.complete DownloadState.complete = false :=
  ⟨rfl, rfl⟩

/-- C1 (amended): `ValidateStateTransition from to` accepts exactly when
`from = to` (self-transitions are always accepted) or `(from, to)` is an
edge of the spec's state machine; consequently every transition entry
appended to a sidecar's `state_history` by a successful `UpdateState`
records a pair that is either a stutter or such an edge. -/
theorem c1_transitions_are_edges_or_stutters :
    (∀ f t : DownloadState,
      (ValidateStateTransition f t).isOk = true ↔ (f = t ∨ specStateEdge f t = true)) ∧
    (∀ (pd : PartialDownload) (s : DownloadState) (now : Nat),
      (pd.updateState s now).1 = none →
        pd.state = s ∨ specStateEdge pd.state s = true) := by
  have hiff : ∀ f t : DownloadState,
      (ValidateStateTransition f t).isOk = true ↔ (f = t ∨ specStateEdge f t = true) := by
    decide
  refine ⟨hiff, ?_⟩
  intro pd s now h
  have hok : (ValidateStateTransition pd.state s).isOk = true := by
    unfold PartialDownload.updateState at h
    cases hv : ValidateStateTransition pd.state s with
    | error e => rw [hv] at h; simp at h
    | ok u => rfl
  exact (hiff pd.state s).mp hok

/-- Witness for C1: the amended theorem applied at a concrete successful
update (pending → in_progress on a concrete record). -/
theorem c1_transitions_witness :
    pdPending.state = DownloadState.inProgress ∨
      specStateEdge pdPending.state DownloadState.inProgress = true :=
  c1_transitions_are_edges_or_stutters.2 pdPending DownloadState.inProgress 7 (by decide)

/-! ## C10: atomicity of UpdateState -/

/-- C10: `UpdateState` fails exactly when `ValidateStateTransition` rejects
the transition; on failure the record is returned unchanged, and on success
exactly one transition entry is appended, the state becomes the requested
one, and `UpdatedAt` is refreshed. -/
theorem c10_update_state_atomic :
    ∀ (pd : PartialDownload) (s : DownloadState) (now : Nat),
      ((pd.updateState s now).1.isSome = true ↔
          ¬ (ValidateStateTransition pd.state s).isOk = true) ∧
      ((pd.updateState s now).1.isSome = true → (pd.updateState s now).2 = pd) ∧
      ((pd.updateState s now).1 = none →
        (pd.updateState s now).2.state = s ∧
        (pd.updateState s now).2.stateHistory
          = pd.stateHistory ++ [⟨pd.state.toString, s.toString, now⟩] ∧
        (pd.updateState s now).2.updatedAt = now) := by
  intro pd s now
  unfold PartialDownload.updateState
  cases hv : ValidateStateTransition pd.state s with
  | error e => simp [Except.isOk, Except.toBool]
  | ok u => simp [Except.isOk, Except.toBool]

/-- Witness for C10: a rejected transition (pending → complete) on a
concrete record leaves the record unchanged, and an accepted one
(pending → in_progress) appends exactly its transition entry. -/
theorem c10_update_state_atomic_witness :
    (pdPending.updateState DownloadState.complete 3).2 = pdPending ∧
    (pdPending.updateState DownloadState.inProgress 3).2.stateHistory
      = pdPending.stateHistory ++ [⟨"pending", "in_progress", 3⟩] :=
  ⟨(c10_update_state_atomic pdPending DownloadState.complete 3).2.1 (by decide),
   ((c10_update_state_atomic pdPending DownloadState.inProgress 3).2.2 (by decide)).2.1⟩

/-! ## C2: checksum verification at end of stream -/

/-- C2: once `DownloadWithProgress` reaches end of stream with an
in-progress sidecar, a digest mismatch marks the sidecar failed (saved to
disk), deletes the destination file and returns the checksum-mismatch
error; a matching digest marks the record complete with the final byte
count, deletes the sidecar file and returns success with the destination
intact. -/
theorem c2_checksum_finish :
    ∀ (p : PartialDownload) (downloaded : Int) (now : Nat) (s0 : Option PartialDownload),
      p.state = DownloadState.inProgress →
      ((finishDownload (some p) downloaded false now true s0).result
          = .error "checksum mismatch" ∧
        (finishDownload (some p) downloaded false now true s0).destExists = false ∧
        ∃ q, (finishDownload (some p) downloaded false now true s0).sidecarFile = some q ∧
          q.state = DownloadState.failed) ∧
      ((finishDownload (some p) downloaded true now true s0).result = .ok () ∧
        (finishDownload (some p) downloaded true now true s0).sidecarFile = none ∧
        (finishDownload (some p) downloaded true now true s0).destExists = true ∧
        ∃ q, (finishDownload (some p) downloaded true now true s0).memPd = some q ∧
          q.state = DownloadState.complete ∧ q.downloadedBytes = downloaded) := by
  intro p downloaded now s0 h
  unfold finishDownload PartialDownload.updateState
  simp [h, ValidateStateTransition, validTransitions]

/-- Witness for C2: the theorem applied to a concrete in-progress sidecar
record. -/
theorem c2_checksum_finish_witness :
    pdInProgress.state = DownloadState.inProgress ∧
    ((finishDownload (some pdInProgress) 10 false 9 true none).result
        = .error "checksum mismatch" ∧
      (finishDownload (some pdInProgress) 10 false 9 true none).destExists = false ∧
      ∃ q, (finishDownload (some pdInProgress) 10 false 9 true none).sidecarFile = some q ∧
        q.state = DownloadState.failed) ∧
    ((finishDownload (some pdInProgress) 10 true 9 true none).result = .ok () ∧
      (finishDownload (some pdInProgress) 10 true 9 true none).sidecarFile = none ∧
      (finishDownload (some pdInProgress) 10 true 9 true none).destExists = true ∧
      ∃ q, (finishDownload (some pdInProgress) 10 true 9 true none).memPd = some q ∧
        q.state = DownloadState.complete ∧ q.downloadedBytes = 10) :=
  ⟨rfl,
    (c2_checksum_finish pdInProgress 10 9 none rfl).1,
    (c2_checksum_finish pdInProgress 10 9 none rfl).2⟩

/-! ## Config (internal/config/config.go) -/

/-- `Config` from internal/config/config.go. -/
structure Config where
  parallelDownloads : Int
  showProgress : Bool
  autoCleanup : Bool
  verbose : Bool
deriving DecidableEq, Repr

/-- `DefaultConfig` from internal/config/config.go lines 22-29. -/
def DefaultConfig : Config :=
  { parallelDownloads := 10, showProgress := false, autoCleanup := false, verbose := false }

/-- `Config.GetParallelDownloads` from internal/config/config.go lines
70-78. -/
def Config.getParallelDownloads (c : Config) : Int :=
  if c.parallelDownloads ≤ 0 then 4
  else if c.parallelDownloads > 20 then 20
  else c.parallelDownloads

/-- C9: the effective parallel-downloads value is always in 1..20, the
default configuration yields 10, values above 20 clamp to 20, values at
most 0 are brought back into 1..20 (the code picks 4), and in-range values
pass through unchanged. -/
theorem c9_parallel_downloads_clamped :
    ∀ c : Config,
      (1 ≤ c.getParallelDownloads ∧ c.getParallelDownloads ≤ 20) ∧
      DefaultConfig.getParallelDownloads = 10 ∧
      (c.parallelDownloads > 20 → c.getParallelDownloads = 20) ∧
      (c.parallelDownloads ≤ 0 →
        1 ≤ c.getParallelDownloads ∧ c.getParallelDownloads ≤ 20) ∧
      (1 ≤ c.parallelDownloads → c.parallelDownloads ≤ 20 →
        c.getParallelDownloads = c.parallelDownloads) := by
  intro c
  refine ⟨?_, by decide, ?_, ?_, ?_⟩ <;>
    simp only [Config.getParallelDownloads] <;> split_ifs <;> omega

/-- Witness for C9: the clamping theorem applied at stored values 25, -3
and 7. -/
theorem c9_parallel_downloads_witness :
    (Config.mk 25 false false false).getParallelDownloads = 20 ∧
    (1 ≤ (Config.mk (-3) false false false).getParallelDownloads ∧
      (Config.mk (-3) false false false).getParallelDownloads ≤ 20) ∧
    (Config.mk 7 false false false).getParallelDownloads = 7 :=
  ⟨(c9_parallel_downloads_clamped (Config.mk 25 false false false)).2.2.1 (by decide),
   (c9_parallel_downloads_clamped (Config.mk (-3) false false false)).2.2.2.1 (by decide),
   (c9_parallel_downloads_clamped (Config.mk 7 false false false)).2.2.2.2 (by decide) (by decide)⟩

/-! ## Retry wrapper (retry package, embedded in src/internal/services/systemd.go) -/

/-- Go `error` values as seen by `errors.As`: a leaf error, a wrapping
error (`fmt.Errorf` with %w), or the opaque `nonRetryableError` marker
produced by `retry.NonRetryable`. -/
inductive GoErr where
  | basic (msg : String)
  | wrap (msg : String) (inner : GoErr)
  | nonRetryableErr (inner : GoErr)
deriving DecidableEq, Repr

/-- `retry.IsRetryable`: `errors.As(err, &nre)` walks the unwrap chain
looking for a `*nonRetryableError`; a leaf error has no unwrap. -/
def IsRetryable : GoErr → Bool
  | .basic _ => true
  | .wrap _ inner => IsRetryable inner
  | .nonRetryableErr _ => false

/-- `retry.NonRetryable` on a non-nil error wraps it in the marker type. -/
def NonRetryable (e : GoErr) : GoErr := .nonRetryableErr e

/-- The loop of `retry.DoWithConfig`.  `fn attempt` is the error result of
the attempt-th invocation (1-based, `none` = success).  The context is
`Background` (never cancelled) and sleeping only affects timing, so both
are dropped.  Returns the function's result error together with the number
of invocations made.  Note the loop retries every error: it never consults
`IsRetryable`. -/
def doWithConfigLoop (fn : Nat → Option GoErr) (attempt : Nat) :
    Nat → Option GoErr × Nat
  | 0 => (none, 0)
  | r + 1 =>
    match fn attempt with
    | none => (none, 1)
    | some e =>
      match r with
      | 0 => (some e, 1)
      | _ + 1 =>
        let rest := doWithConfigLoop fn (attempt + 1) r
        (rest.1, rest.2 + 1)

/-- `retry.DoWithConfig` with `cfg.MaxAttempts = maxAttempts`; the delay
fields of the config do not influence results or invocation counts. -/
def DoWithConfig (maxAttempts : Nat) (fn : Nat → Option GoErr) : Option GoErr × Nat :=
  doWithConfigLoop fn 1 maxAttempts

/-- The loop of `retry.WithResultConfig` (result value abstracted away):
identical to `doWithConfigLoop` except that after a failed attempt that is
not the last one, a non-retryable error is returned immediately. -/
def withResultLoop (fn : Nat → Option GoErr) (attempt : Nat) :
    Nat → Option GoErr × Nat
  | 0 => (none, 0)
  | r + 1 =>
    match fn attempt with
    | none => (none, 1)
    | some e =>
      match r with
      | 0 => (some e, 1)
      | _ + 1 =>
        if IsRetryable e = false then (some e, 1)
        else
          let rest := withResultLoop fn (attempt + 1) r
          (rest.1, rest.2 + 1)

/-- `retry.WithResultConfig` with `cfg.MaxAttempts = maxAttempts`. -/
def WithResultConfig (maxAttempts : Nat) (fn : Nat → Option GoErr) : Option GoErr × Nat :=
  withResultLoop fn 1 maxAttempts

theorem doWithConfigLoop_count_le (fn : Nat → Option GoErr) :
    ∀ (r a : Nat), (doWithConfigLoop fn a r).2 ≤ r := by
  intro r
  induction r with
  | zero => intro a; simp [doWithConfigLoop]
  | succ n ih =>
    intro a
    cases hf : fn a with
    | none => simp [doWithConfigLoop, hf]
    | some e =>
      cases n with
      | zero => simp [doWithConfigLoop, hf]
      | succ m =>
        have hstep : (doWithConfigLoop fn a (m + 1 + 1)).2
            = (doWithConfigLoop fn (a + 1) (m + 1)).2 + 1 := by
          simp [doWithConfigLoop, hf]
        have hih := ih (a + 1)
        omega

theorem withResultLoop_count_le (fn : Nat → Option GoErr) :
    ∀ (r a : Nat), (withResultLoop fn a r).2 ≤ r := by
  intro r
  induction r with
  | zero => intro a; simp [withResultLoop]
  | succ n ih =>
    intro a
    cases hf : fn a with
    | none => simp [withResultLoop, hf]
    | some e =>
      cases n with
      | zero => simp [withResultLoop, hf]
      | succ m =>
        by_cases hr : IsRetryable e = false
        · simp [withResultLoop, hf, hr]
        · have hstep : (withResultLoop fn a (m + 1 + 1)).2
              = (withResultLoop fn (a + 1) (m + 1)).2 + 1 := by
            simp [withResultLoop, hf, hr]
          have hih := ih (a + 1)
          omega

/-- C5 counterexample: with the default configuration (3 attempts),
`DoWithConfig` invokes an operation that always fails with a
marker-wrapped non-retryable error 3 times — it never short-circuits —
whereas the claim requires no further invocation after the first. -/
theorem c5_counterexample_do_retries_nonretryable :
    IsRetryable (NonRetryable (GoErr.basic "denied")) = false ∧
    (DoWithConfig 3 (fun _ => some (NonRetryable (GoErr.basic "denied")))).2 = 3 ∧
    (DoWithConfig 3 (fun _ => some (NonRetryable (GoErr.basic "denied")))).1
      = some (NonRetryable (GoErr.basic "denied")) :=
  ⟨rfl, rfl, rfl⟩

/-- C5 (amended): with the default configuration both wrappers invoke the
operation at most 3 times; and for `WithResultConfig` (the result-returning
wrapper — the only one that consults `IsRetryable`), once an invocation
fails with a marker-wrapped non-retryable error no further invocation is
made and that error is returned.  `DoWithConfig` retries non-retryable
errors like any other. -/
theorem c5_retry_bounds_and_short_circuit :
    (∀ fn, (DoWithConfig 3 fn).2 ≤ 3) ∧
    (∀ fn, (WithResultConfig 3 fn).2 ≤ 3) ∧
    (∀ (fn : Nat → Option GoErr) (k : Nat) (e : GoErr),
      1 ≤ k → k ≤ 3 →
      (∀ j, 1 ≤ j → j < k → ∃ ej, fn j = some ej ∧ IsRetryable ej = true) →
      fn k = some e → IsRetryable e = false →
      WithResultConfig 3 fn = (some e, k)) := by
  refine ⟨fun fn => doWithConfigLoop_count_le fn 3 1,
          fun fn => withResultLoop_count_le fn 3 1, ?_⟩
  intro fn k e hk1 hk3 hprev hke hnr
  interval_cases k
  · simp [WithResultConfig, withResultLoop, hke, hnr]
  · obtain ⟨e1, h1, hr1⟩ := hprev 1 (by omega) (by omega)
    simp [WithResultConfig, withResultLoop, h1, hr1, hke, hnr]
  · obtain ⟨e1, h1, hr1⟩ := hprev 1 (by omega) (by omega)
    obtain ⟨e2, h2, hr2⟩ := hprev 2 (by omega) (by omega)
    simp [WithResultConfig, withResultLoop, h1, hr1, h2, hr2, hke]

/-- Witness for C5: a concrete operation that fails retryably once and
then non-retryably short-circuits `WithResultConfig` at its second
invocation. -/
theorem c5_retry_witness :
    WithResultConfig 3
        (fun j => if j = 1 then some (GoErr.basic "transient")
                  else some (NonRetryable (GoErr.basic "denied")))
      = (some (NonRetryable (GoErr.basic "denied")), 2) :=
  c5_retry_bounds_and_short_circuit.2.2
    (fun j => if j = 1 then some (GoErr.basic "transient")
              else some (NonRetryable (GoErr.basic "denied")))
    2 (NonRetryable (GoErr.basic "denied")) (by omega) (by omega)
    (by
      intro j hj1 hj2
      have hj : j = 1 := by omega
      exact ⟨GoErr.basic "transient", by simp [hj], rfl⟩)
    (by simp) rfl

/-! ## Go string helpers used by several embeddings -/

/-- `strings.HasPrefix` from the Go standard library. -/
def strHasPfx (s pre : String) : Bool := pre.toList.isPrefixOf s.toList

/-- `strings.TrimPrefix` from the Go standard library. -/
def trimPfx (s pre : String) : String :=
  if pre.toList.isPrefixOf s.toList then String.mk (s.toList.drop pre.toList.length) else s

/-! ## Bottle selection (internal/brew/formula.go lines 14, 84-130) -/

/-- `macOSFallbackOrder` from internal/brew/formula.go line 14. -/
def macOSFallbackOrder : List String :=
  ["tahoe", "sequoia", "sonoma", "ventura", "monterey", "big_sur"]

/-- `BottleFile` from internal/brew/formula.go. -/
structure BottleFile where
  cellar : String
  url : String
  sha256 : String
deriving DecidableEq, Repr

/-- The `bottle.stable.files` Go map, embedded as an association list;
`lookupFiles` is map indexing. -/
def lookupFiles (files : List (String × BottleFile)) (k : String) : Option BottleFile :=
  (files.find? (fun p => p.1 == k)).map (fun p => p.2)

/-- The `for i, v := range macOSFallbackOrder` loop with `break`: the part
of the list strictly after the first occurrence of `v` (empty when `v` is
not an element). -/
def suffixAfter (v : String) : List String → List String
  | [] => []
  | x :: rest => if x = v then rest else suffixAfter v rest

/-- The `for _, candidate := range candidates` loop of `GetBottleInfo`:
first candidate key present in the files map. -/
def findFirstHit (files : List (String × BottleFile)) : List String → Option BottleFile
  | [] => none
  | c :: rest =>
    match lookupFiles files c with
    | some f => some f
    | none => findFirstHit files rest

/-- `RemoteFormula.GetBottleInfo` from internal/brew/formula.go lines
84-130 (the first, fallback-aware revision of the file), with the current
platform key passed in place of the `GetPlatform()` call.  The Go function
returns `(url, sha256)` or an error listing the available keys; the error
message is not modelled, so the result is an `Option`. -/
def getBottleInfo (files : List (String × BottleFile)) (platform : String) :
    Option (String × String) :=
  match lookupFiles files platform with
  | some file => some (file.url, file.sha256)
  | none =>
    let candidates :=
      if strHasPfx platform "arm64_" then
        (suffixAfter (trimPfx platform "arm64_") macOSFallbackOrder).map
          (fun older => "arm64_" ++ older)
      else
        suffixAfter platform macOSFallbackOrder
    match findFirstHit files candidates with
    | some file => some (file.url, file.sha256)
    | none =>
      match lookupFiles files "all" with
      | some file => some (file.url, file.sha256)
      | none => none

/-- Comparator definition for C3, written from the spec's words
(spec.md §4.3): the fallback chain walks the documented codename order from
newest to oldest starting just after the current codename, an `arm64_`
key falling back only within the `arm64_` family and a bare key only
within the bare family. -/
def specFallbackChain (platform : String) : List String :=
  if strHasPfx platform "arm64_" then
    let codename := trimPfx platform "arm64_"
    ((macOSFallbackOrder.dropWhile (fun v => v != codename)).drop 1).map
      (fun older => "arm64_" ++ older)
  else
    (macOSFallbackOrder.dropWhile (fun v => v != platform)).drop 1

/-- Comparator definition for C3, written from the spec's words
(spec.md §4.3): take `files[P]` if present, else the first hit along the
fallback chain, else `files["all"]`, else no bottle. -/
def specBottleChoice (files : List (String × BottleFile)) (platform : String) :
    Option (String × String) :=
  match lookupFiles files platform with
  | some f => some (f.url, f.sha256)
  | none =>
    match (specFallbackChain platform).findSome? (fun c => lookupFiles files c) with
    | some f => some (f.url, f.sha256)
    | none => (lookupFiles files "all").map (fun f => (f.url, f.sha256))

theorem suffixAfter_eq_dropWhile (v : String) :
    ∀ l : List String, suffixAfter v l = (l.dropWhile (fun x => x != v)).drop 1 := by
  intro l
  induction l with
  | nil => rfl
  | cons x rest ih =>
    by_cases h : x = v
    · simp [suffixAfter, h, List.dropWhile]
    · have hb : (x != v) = true := by simp [h]
      simp [suffixAfter, h, List.dropWhile, hb, ih]

theorem findFirstHit_eq_findSome (files : List (String × BottleFile)) :
    ∀ cs : List String, findFirstHit files cs = cs.findSome? (fun c => lookupFiles files c) := by
  intro cs
  induction cs with
  | nil => rfl
  | cons c rest ih =>
    cases h : lookupFiles files c with
    | some f => simp [findFirstHit, h, List.findSome?]
    | none => simp [findFirstHit, h, List.findSome?, ih]

/-- C3: for every formula files map and platform key, `GetBottleInfo`
selects `files[P]` when present, otherwise walks the macOS codename
fallback order (arm64 keys within the arm64 family, bare keys within the
bare family, newest to oldest after the current codename), otherwise
`files["all"]`, otherwise reports no bottle for the platform. -/
theorem c3_bottle_selection :
    ∀ (files : List (String × BottleFile)) (platform : String),
      getBottleInfo files platform = specBottleChoice files platform := by
  intro files platform
  unfold getBottleInfo specBottleChoice specFallbackChain
  cases hp : lookupFiles files platform with
  | some f => simp only [hp]
  | none =>
    simp only [hp, findFirstHit_eq_findSome, suffixAfter_eq_dropWhile]
    cases hall : lookupFiles files "all" <;> simp [hall]

/-! ## Prefix search index (internal/brew/upgrade.go lines 612-645) -/

/-- `SearchItem` from internal/brew (flattened catalog view). -/
structure SearchItem where
  name : String
  desc : String
  isCask : Bool
deriving DecidableEq, Repr, Inhabited

/-- `strings.ToLower`, modelled charwise (`Char.toLower`); Go's byte-level
window slicing of ASCII names coincides with the char-level slicing used
below. -/
def strToLower (s : String) : List Char := s.toList.map Char.toLower

/-- The nested loops of `BuildIndex` (upgrade.go lines 619-630): for each
item index `idx`, for each gram length 2..3 not exceeding the lowercased
name's length, for each window position, the pair (window, idx) is
appended to the prefix map.  Embedded as the flat list of append events in
loop order. -/
def gramEvents (items : List SearchItem) : List (List Char × Nat) :=
  items.enum.flatMap (fun p =>
    ([2, 3].filter (fun len => len ≤ (strToLower p.2.name).length)).flatMap (fun len =>
      (List.range ((strToLower p.2.name).length - len + 1)).map
        (fun i => (((strToLower p.2.name).drop i).take len, p.1))))

/-- The dedup pass of `BuildIndex` (upgrade.go lines 632-642): keep the
first occurrence of each index, tracked by the `seen` set. -/
def dedupFirst (seen : List Nat) : List Nat → List Nat
  | [] => []
  | x :: xs => if x ∈ seen then dedupFirst seen xs else x :: dedupFirst (x :: seen) xs

/-- The bucket stored under key `p` once `BuildIndex` has run: the append
events for `p` in order, deduplicated.  An absent key reads as the Go map
zero value `[]`. -/
def bucket (items : List SearchItem) (p : List Char) : List Nat :=
  dedupFirst [] (((gramEvents items).filter (fun e => e.1 == p)).map (fun e => e.2))

/-- Item `idx` appears in at least one bucket of the prefix map. -/
def appearsInIndex (items : List SearchItem) (idx : Nat) : Prop :=
  ∃ p, idx ∈ bucket items p

theorem mem_dedupFirst :
    ∀ (l seen : List Nat) (x : Nat), x ∈ dedupFirst seen l ↔ (x ∈ l ∧ x ∉ seen) := by
  intro l
  induction l with
  | nil => intro seen x; simp [dedupFirst]
  | cons y ys ih =>
    intro seen x
    by_cases hy : y ∈ seen
    · rw [dedupFirst, if_pos hy, ih]
      constructor
      · exact fun h => ⟨List.mem_cons_of_mem y h.1, h.2⟩
      · rintro ⟨h1, h2⟩
        rcases List.mem_cons.mp h1 with h | h
        · exact absurd (h ▸ hy) h2
        · exact ⟨h, h2⟩
    · rw [dedupFirst, if_neg hy]
      constructor
      · intro h
        rcases List.mem_cons.mp h with h | h
        · exact ⟨h ▸ List.mem_cons_self y ys, h ▸ hy⟩
        · have := (ih (y :: seen) x).mp h
          exact ⟨List.mem_cons_of_mem y this.1,
            fun hx => this.2 (List.mem_cons_of_mem y hx)⟩
      · rintro ⟨h1, h2⟩
        rcases List.mem_cons.mp h1 with h | h
        · exact h ▸ List.mem_cons_self _ _
        · by_cases hxy : x = y
          · exact hxy ▸ List.mem_cons_self _ _
          · exact List.mem_cons_of_mem _
              ((ih (y :: seen) x).mpr ⟨h, by
                intro hx
                rcases List.mem_cons.mp hx with h' | h'
                · exact hxy h'
                · exact h2 h'⟩)

theorem nodup_dedupFirst : ∀ (l seen : List Nat), (dedupFirst seen l).Nodup := by
  intro l
  induction l with
  | nil => intro seen; simp [dedupFirst]
  | cons y ys ih =>
    intro seen
    by_cases hy : y ∈ seen
    · rw [dedupFirst, if_pos hy]; exact ih seen
    · rw [dedupFirst, if_neg hy]
      refine List.Nodup.cons ?_ (ih (y :: seen))
      intro hmem
      exact ((mem_dedupFirst ys (y :: seen) y).mp hmem).2 (List.mem_cons_self y seen)

/-- Indices found in any bucket are in range of the item vector. -/
theorem bucket_mem_lt (items : List SearchItem) (p : List Char) :
    ∀ i ∈ bucket items p, i < items.length := by
  intro i hi
  have h1 := ((mem_dedupFirst _ [] i).mp hi).1
  obtain ⟨e, he, hei⟩ := List.mem_map.mp h1
  have he2 := (List.mem_filter.mp he).1
  obtain ⟨pe, hpe, hin⟩ := List.mem_flatMap.mp he2
  obtain ⟨len, hlen, hin2⟩ := List.mem_flatMap.mp hin
  obtain ⟨pos, hpos, hEq⟩ := List.mem_map.mp hin2
  have hidx : e.2 = pe.1 := by rw [← hEq]
  have hlt : pe.1 < items.length := by
    have hg := List.mk_mem_enum_iff_getElem?.mp (show (pe.1, pe.2) ∈ items.enum from hpe)
    obtain ⟨h, -⟩ := List.getElem?_eq_some_iff.mp hg
    exact h
  omega

/-- C8 counterexample: an item whose name has fewer than 2 characters
produces no append events at all (the gram-length loop never runs), so it
appears in no bucket, contradicting the claim for arbitrary item lists. -/
theorem c8_counterexample_short_name :
    gramEvents [SearchItem.mk "a" "tiny" false] = [] ∧
    ¬ appearsInIndex [SearchItem.mk "a" "tiny" false] 0 := by
  refine ⟨rfl, ?_⟩
  rintro ⟨p, hp⟩
  have h1 := ((mem_dedupFirst _ [] 0).mp hp).1
  rw [show gramEvents [SearchItem.mk "a" "tiny" false] = [] from rfl] at h1
  simp at h1

/-- C8 (amended): after `BuildIndex` runs, every item whose lowercased
name has at least 2 characters appears in at least one bucket of the
prefix map (items with shorter names appear in none), and every bucket is
deduplicated. -/
theorem c8_coverage_and_dedup :
    (∀ (items : List SearchItem) (idx : Nat) (h : idx < items.length),
      2 ≤ (strToLower items[idx].name).length → appearsInIndex items idx) ∧
    (∀ (items : List SearchItem) (p : List Char), (bucket items p).Nodup) := by
  constructor
  · intro items idx h hlen
    refine ⟨(strToLower items[idx].name).take 2, ?_⟩
    have henum : (idx, items[idx]) ∈ items.enum :=
      List.mk_mem_enum_iff_getElem?.mpr (List.getElem?_eq_getElem h)
    have hbody : ((strToLower items[idx].name).take 2, idx) ∈
        ([2, 3].filter (fun len => len ≤ (strToLower items[idx].name).length)).flatMap
          (fun len => (List.range ((strToLower items[idx].name).length - len + 1)).map
            (fun i => (((strToLower items[idx].name).drop i).take len, idx))) := by
      apply List.mem_flatMap.mpr
      refine ⟨2, ?_, ?_⟩
      · rw [List.mem_filter]
        exact ⟨by simp, by simpa using hlen⟩
      · apply List.mem_map.mpr
        refine ⟨0, ?_, ?_⟩
        · rw [List.mem_range]; omega
        · simp
    have hmem : ((strToLower items[idx].name).take 2, idx) ∈ gramEvents items :=
      List.mem_flatMap.mpr ⟨(idx, items[idx]), henum, hbody⟩
    have : idx ∈ ((gramEvents items).filter
        (fun e => e.1 == (strToLower items[idx].name).take 2)).map (fun e => e.2) := by
      apply List.mem_map.mpr
      refine ⟨((strToLower items[idx].name).take 2, idx), ?_, rfl⟩
      rw [List.mem_filter]
      exact ⟨hmem, by simp⟩
    exact (mem_dedupFirst _ [] idx).mpr ⟨this, by simp⟩
  · intro items p
    exact nodup_dedupFirst _ _

/-- Concrete single-item list used by search witnesses. -/
def itemsPython : List SearchItem :=
  [SearchItem.mk "python" "Python programming language" false]

/-- Witness for C8: the coverage theorem applied to a concrete one-item
list. -/
theorem c8_coverage_witness : appearsInIndex itemsPython 0 :=
  c8_coverage_and_dedup.1 itemsPython 0 (by decide) (by decide)

/-! ## Fuzzy search (upgrade.go lines 671-703, part_009 lines 341-359) -/

/-- Greedy in-order subsequence test.  This is the match condition of the
external github.com/sahilm/fuzzy library: `fuzzy.FindFrom` returns the
candidates whose text contains the pattern as a case-insensitive in-order
(not necessarily contiguous) subsequence.  Scoring and result order are
abstracted away; only the match set matters for the claim. -/
def isSubseq : List Char → List Char → Bool
  | [], _ => true
  | _ :: _, [] => false
  | c :: cs, t :: ts => if c = t then isSubseq cs ts else isSubseq (c :: cs) ts

/-- `fuzzy.FindFrom` over a list of candidate names, returning the indices
of the matching candidates (the `Match.Index` values). -/
def fuzzyFindFrom (pattern : String) (sources : List String) : List Nat :=
  (sources.enum.filter (fun e => isSubseq (strToLower pattern) (strToLower e.2))).map
    (fun e => e.1)

/-- `searchSourceFromItems` / `prefixSearchSource` from
internal/brew/upgrade.go lines 798-812: the text the fuzzy matcher sees
for item `i` is `String(i) = items[i].Name + " " + items[i].Desc`. -/
def searchSourceFromItems (items : List SearchItem) : List String :=
  items.map (fun it => it.name ++ " " ++ it.desc)

/-- `PrefixIndex.SearchFuzzy` from internal/brew/upgrade.go lines 671-703,
returning the remapped match indices (`matches[i].Index` after the loop
rewrites them through `candidateIndices`).  The Go locals `searchPrefix`
(the lowercased query truncated to 3 bytes) and `candidates` are inlined. -/
def searchFuzzy (items : List SearchItem) (query : String) : List Nat :=
  if query.toList.length < 2 then
    fuzzyFindFrom query (searchSourceFromItems items)
  else
    if bucket items ((strToLower query).take 3) = [] then []
    else
      (fuzzyFindFrom query
        (searchSourceFromItems ((bucket items ((strToLower query).take 3)).map
            (fun idx => items.getD idx default)))).map
        (fun j => (bucket items ((strToLower query).take 3)).getD j 0)

/-- `Client.SearchFuzzyWithIndex` from src/unnamed/part_009 lines 341-359:
map each match index back through the backing item vector. -/
def searchFuzzyWithIndex (items : List SearchItem) (query : String) : List SearchItem :=
  (searchFuzzy items query).map (fun i => items.getD i default)

/-- Contiguous substring test, used to state the spec's claimed
property. -/
def containsSubstr (s sub : List Char) : Bool :=
  (List.range (s.length + 1)).any (fun i => sub.isPrefixOf (s.drop i))

/-- Members of `fuzzyFindFrom` are in-range indices of candidates whose
lowered text contains the lowered pattern as a subsequence. -/
theorem fuzzyFindFrom_mem (pattern : String) (names : List String) (i : Nat)
    (hi : i ∈ fuzzyFindFrom pattern names) :
    i < names.length ∧ isSubseq (strToLower pattern) (strToLower (names.getD i "")) = true := by
  obtain ⟨e, he, hei⟩ := List.mem_map.mp hi
  have hef := List.mem_filter.mp he
  have hg := List.mk_mem_enum_iff_getElem?.mp (show (e.1, e.2) ∈ names.enum from hef.1)
  obtain ⟨hlt, hval⟩ := List.getElem?_eq_some_iff.mp hg
  subst hei
  refine ⟨hlt, ?_⟩
  rw [List.getD_eq_getElem names "" hlt, hval]
  exact hef.2

/-- Members of a bucket are in-range indices of items whose lowered name
contains the bucket key as a contiguous substring. -/
theorem bucket_elem_gram (items : List SearchItem) (p : List Char) (i : Nat)
    (hi : i ∈ bucket items p) :
    ∃ h : i < items.length, containsSubstr (strToLower items[i].name) p = true := by
  have h1 := ((mem_dedupFirst _ [] i).mp hi).1
  obtain ⟨e, he, hei⟩ := List.mem_map.mp h1
  have hef := List.mem_filter.mp he
  have hkeyEq : e.1 = p := by simpa using hef.2
  obtain ⟨pe, hpe, hin⟩ := List.mem_flatMap.mp hef.1
  obtain ⟨len, hlenm, hin2⟩ := List.mem_flatMap.mp hin
  obtain ⟨pos, hpos, hEq⟩ := List.mem_map.mp hin2
  have hg := List.mk_mem_enum_iff_getElem?.mp (show (pe.1, pe.2) ∈ items.enum from hpe)
  obtain ⟨hlt, hval⟩ := List.getElem?_eq_some_iff.mp hg
  have hie : i = pe.1 := by rw [← hei, ← hEq]
  subst hie
  refine ⟨hlt, ?_⟩
  have hp : p = ((strToLower pe.2.name).drop pos).take len := by rw [← hkeyEq, ← hEq]
  rw [hval, hp]
  have hposR := List.mem_range.mp hpos
  rw [containsSubstr, List.any_eq_true]
  refine ⟨pos, ?_, ?_⟩
  · rw [List.mem_range]; omega
  · rw [List.isPrefixOf_iff_prefix]
    exact List.take_prefix len ((strToLower pe.2.name).drop pos)

/-- Concrete item showing the subsequence/substring gap. -/
def itemAbcxd : SearchItem := SearchItem.mk "abcxd" "" false

/-- C4 counterexample: for the 4-character query "abcd" the index search
returns the item named "abcxd" — its bucket key is only the first three
characters "abc" and the fuzzy filter is a subsequence (not substring)
match over name-plus-description — yet "abcd" is not a contiguous
substring of "abcxd".  A match may even be completed by the description:
the item named "abc" with description "xd" is returned for the same query
although "abcd" is not even a subsequence of its name. -/
theorem c4_counterexample_subsequence_match :
    searchFuzzyWithIndex [itemAbcxd] "abcd" = [itemAbcxd] ∧
    containsSubstr itemAbcxd.name.toList (strToLower "abcd") = false ∧
    containsSubstr (strToLower itemAbcxd.name) (strToLower "abcd") = false ∧
    searchFuzzyWithIndex [SearchItem.mk "abc" "xd" false] "abcd"
      = [SearchItem.mk "abc" "xd" false] ∧
    isSubseq (strToLower "abcd") (strToLower "abc") = false := by
  exact ⟨rfl, rfl, rfl, rfl, rfl⟩

/-- C4 (amended): for every query of length at least 2, the search returns
only items drawn from the backing item vector; every returned item's
lowercased name contains the first `min(3, length)` characters of the
lowercased query as a contiguous substring, and the lowercased text the
fuzzy matcher sees for the item — its name, a space, and its description —
contains the full lowercased query as an in-order subsequence.  (For
queries of length 2 or 3 the truncation is the whole query, giving the
claimed substring-of-name property; for longer queries only the 3-character
bucket key is guaranteed contiguous and the match may extend into the
description.) -/
theorem c4_search_subset_and_match :
    ∀ (items : List SearchItem) (query : String), 2 ≤ query.toList.length →
      ∀ it ∈ searchFuzzyWithIndex items query,
        it ∈ items ∧
        containsSubstr (strToLower it.name) ((strToLower query).take 3) = true ∧
        isSubseq (strToLower query) (strToLower (it.name ++ " " ++ it.desc)) = true := by
  intro items query hq it hit
  obtain ⟨i, hi, hval⟩ := List.mem_map.mp hit
  have hq2 : ¬ (query.toList.length < 2) := by omega
  rw [searchFuzzy, if_neg hq2] at hi
  by_cases hb : bucket items ((strToLower query).take 3) = []
  · rw [if_pos hb] at hi
    simp at hi
  · rw [if_neg hb] at hi
    obtain ⟨j, hj, hjval⟩ := List.mem_map.mp hi
    obtain ⟨hjlt, hsub⟩ := fuzzyFindFrom_mem _ _ _ hj
    have hjb : j < (bucket items ((strToLower query).take 3)).length := by
      simpa [searchSourceFromItems] using hjlt
    have hieq : i = (bucket items ((strToLower query).take 3))[j] := by
      rw [← hjval]
      exact List.getD_eq_getElem _ 0 hjb
    have hibucket : i ∈ bucket items ((strToLower query).take 3) := by
      rw [hieq]; exact List.getElem_mem hjb
    obtain ⟨hilt, hgram⟩ := bucket_elem_gram items _ i hibucket
    have hitval : it = items[i] := by
      rw [← hval]
      exact List.getD_eq_getElem items default hilt
    have hsrc : (searchSourceFromItems ((bucket items ((strToLower query).take 3)).map
        (fun idx => items.getD idx default))).getD j "" = it.name ++ " " ++ it.desc := by
      rw [searchSourceFromItems]
      rw [List.getD_eq_getElem _ "" (by simpa using hjb), List.getElem_map, List.getElem_map,
        ← hieq, List.getD_eq_getElem items default hilt, hitval]
    refine ⟨?_, ?_, ?_⟩
    · rw [hitval]; exact List.getElem_mem hilt
    · rw [hitval]; exact hgram
    · rw [← hsrc]
      exact hsub

/-- Witness for C4: the amended theorem applied to a concrete item list
and the 4-character query "pyth". -/
theorem c4_search_witness :
    2 ≤ "pyth".toList.length ∧
    (SearchItem.mk "python" "Python programming language" false ∈ itemsPython ∧
      containsSubstr (strToLower (SearchItem.mk "python" "Python programming language"
        false).name) ((strToLower "pyth").take 3) = true ∧
      isSubseq (strToLower "pyth")
        (strToLower ((SearchItem.mk "python" "Python programming language" false).name
          ++ " " ++ (SearchItem.mk "python" "Python programming language" false).desc))
        = true) :=
  ⟨by decide,
   c4_search_subset_and_match itemsPython "pyth" (by decide)
     (SearchItem.mk "python" "Python programming language" false) (by decide)⟩

/-! ## Go path/filepath (unix separator), used by ExtractBottle -/

/-- Split a character list on '/'; components may be empty. -/
def splitSlashAux : List Char → List Char → List (List Char)
  | cur, [] => [cur.reverse]
  | cur, c :: rest =>
    if c = '/' then cur.reverse :: splitSlashAux [] rest else splitSlashAux (c :: cur) rest

/-- All '/'-separated components of a character list. -/
def splitSlash (s : List Char) : List (List Char) := splitSlashAux [] s

/-- The component processing of Go `filepath.Clean` (unix): empty and "."
components are skipped; ".." pops a preceding normal component, is dropped
at the root of a rooted path, and is kept when there is nothing to pop in
a relative path.  `stack` holds the output components in reverse order. -/
def cleanStack (rooted : Bool) (stack : List (List Char)) : List (List Char) → List (List Char)
  | [] => stack.reverse
  | comp :: rest =>
    if comp = [] ∨ comp = ['.'] then cleanStack rooted stack rest
    else if comp = ['.', '.'] then
      match stack with
      | [] =>
        if rooted then cleanStack rooted [] rest
        else cleanStack rooted [['.', '.']] rest
      | top :: remaining =>
        if top = ['.', '.'] then cleanStack rooted (comp :: top :: remaining) rest
        else cleanStack rooted remaining rest
    else cleanStack rooted (comp :: stack) rest

/-- Join components with '/'. -/
def joinComps : List (List Char) → List Char
  | [] => []
  | [c] => c
  | c :: rest => c ++ '/' :: joinComps rest

/-- Go `filepath.Clean` for the unix separator, via the standard
component-stack formulation of its lexical rules (collapse separators,
drop ".", resolve "..", "" cleans to "."). -/
def goClean (s : String) : String :=
  if s = "" then "."
  else
    if s.toList.head? = some '/' then
      match cleanStack true [] (splitSlash s.toList) with
      | [] => "/"
      | comps => String.mk ('/' :: joinComps comps)
    else
      match cleanStack false [] (splitSlash s.toList) with
      | [] => "."
      | comps => String.mk (joinComps comps)

/-- Go `filepath.IsAbs` (unix). -/
def goIsAbs (s : String) : Bool := strHasPfx s "/"

/-- Go `filepath.Join` of two elements: leading empty elements are
skipped, the rest joined with '/' and cleaned; all-empty yields "". -/
def goJoin2 (a b : String) : String :=
  if a ≠ "" then goClean (a ++ "/" ++ b)
  else if b ≠ "" then goClean b
  else ""

/-- Go `filepath.Dir`: the portion of the path up to and including the
final separator, cleaned (`Clean("")` = "." covers a path with no
separator). -/
def goDir (s : String) : String :=
  goClean (String.mk ((s.toList.reverse.dropWhile (fun c => c ≠ '/')).reverse))

/-! ## Symlink safety in bottle extraction (internal/brew/bottle.go) -/

/-- `isSafeSymlink` from internal/brew/bottle.go lines 462-472. -/
def isSafeSymlink (cellarDir prefixDir target linkname : String) : Bool :=
  strHasPfx
    (if goIsAbs linkname then goClean linkname
     else goClean (goJoin2 (goDir target) linkname))
    (goClean cellarDir ++ "/") ||
  strHasPfx
    (if goIsAbs linkname then goClean linkname
     else goClean (goJoin2 (goDir target) linkname))
    (goClean prefixDir ++ "/")

/-- The accept/reject decision taken by the `TypeSymlink` case of
`ExtractBottle` (internal/brew/bottle.go lines 395-436) for an entry named
`name` with link target `linkname`: the zip-slip check on the entry path,
then `isSafeSymlink`; extraction fails with an error when either check
rejects. -/
def symlinkEntryAccepted (cellarDir prefixDir name linkname : String) : Bool :=
  strHasPfx (goJoin2 cellarDir name) (goClean cellarDir ++ "/") &&
  isSafeSymlink cellarDir prefixDir (goJoin2 cellarDir name) linkname

/-- The "resolves" notion of spec §4.6 for a symlink's target: an absolute
link target is cleaned lexically; a relative one is resolved against the
directory containing the symlink. -/
def resolveLinkTarget (target linkname : String) : String :=
  if goIsAbs linkname then goClean linkname
  else goClean (goJoin2 (goDir target) linkname)

/-- A path lies inside a root when it extends the cleaned root past a
separator. -/
def resolvesInsideRoot (root p : String) : Bool :=
  strHasPfx p (goClean root ++ "/")

/-- C6 counterexample: a relative symlink entry whose target climbs out of
both the cellar root and the prefix root is rejected by `isSafeSymlink`,
so extraction does fail on a relative symlink, contrary to the claim that
every relative link target is accepted. -/
theorem c6_counterexample_relative_escape :
    goIsAbs "../../../../../etc/passwd" = false ∧
    isSafeSymlink "/prefix/Cellar" "/prefix" "/prefix/Cellar/foo/1.0/lib/evil"
      "../../../../../etc/passwd" = false ∧
    symlinkEntryAccepted "/prefix/Cellar" "/prefix" "foo/1.0/lib/evil"
      "../../../../../etc/passwd" = false := by
  exact ⟨rfl, rfl, rfl⟩

/-- C6 (amended): a symlink entry's link target — absolute or relative —
is accepted exactly when its resolution (absolute targets cleaned
lexically, relative targets resolved against the symlink's directory) lies
inside the cellar root or the prefix root; in particular for absolute link
targets the decision is independent of the entry's own path, and relative
link targets that escape both roots are rejected. -/
theorem c6_symlink_acceptance :
    ∀ (cellarDir prefixDir target linkname : String),
      (isSafeSymlink cellarDir prefixDir target linkname = true ↔
        (resolvesInsideRoot cellarDir (resolveLinkTarget target linkname) = true ∨
         resolvesInsideRoot prefixDir (resolveLinkTarget target linkname) = true)) ∧
      (goIsAbs linkname = true →
        ∀ target2, isSafeSymlink cellarDir prefixDir target linkname
          = isSafeSymlink cellarDir prefixDir target2 linkname) := by
  intro c px t l
  constructor
  · unfold isSafeSymlink resolveLinkTarget resolvesInsideRoot
    cases h : goIsAbs l <;> simp [h, Bool.or_eq_true]
  · intro habs t2
    unfold isSafeSymlink
    rw [habs]
    simp

/-- Witness for C6: the amended theorem applied to a concrete in-cellar
absolute link target, which is accepted. -/
theorem c6_symlink_witness :
    isSafeSymlink "/prefix/Cellar" "/prefix" "/prefix/Cellar/foo/1.0/bin/tool"
      "/prefix/Cellar/foo/1.0/libexec/tool" = true :=
  ((c6_symlink_acceptance "/prefix/Cellar" "/prefix" "/prefix/Cellar/foo/1.0/bin/tool"
      "/prefix/Cellar/foo/1.0/libexec/tool").1).mpr (Or.inl (by decide))

/-! ## Linker unlink (internal/brew/linker.go lines 190-255)

Paths are modelled as lists of '/'-separated components of cleaned
absolute paths: `filepath.Join` of a clean directory and a clean simple
component appends a component, and `strings.HasPrefix` of a readlink
target against a clean directory path followed by the separator is proper
component-prefix.  The keg's directory tree is abstracted by `versions`
(the entries of the keg dir) and `walkFiles srcDir` (the relative paths of
the files `filepath.Walk` enumerates below `srcDir`; empty when the dir is
absent), and the prefix tree by a partial map from paths to entries. -/

/-- A path as components. -/
abbrev GoPath := List String

/-- A prefix-tree entry: a regular file or directory, or a symbolic link
with its readlink target. -/
inductive FsEntry where
  | file
  | symlink (target : GoPath)
deriving DecidableEq, Repr

/-- The file system as a partial map from paths to entries. -/
def FS := GoPath → Option FsEntry

/-- `strings.HasPrefix(target, dir + "/")` for a clean directory path
`dir`: `dir`'s components are a proper prefix of the target's. -/
def underDir (dir target : GoPath) : Bool :=
  dir.isPrefixOf target && dir != target

/-- `linkDirs` from linker.go lines 204-207. -/
def linkDirsList (darwin : Bool) : List String :=
  ["bin", "sbin", "lib", "include", "share", "etc"] ++
    (if darwin then ["Frameworks"] else [])

/-- `Client.unlinkDir` from linker.go lines 227-255: for each file below
the keg source dir (by its path `rel` relative to that dir), inspect the
same relative path inside the prefix target dir; when it is a symlink
whose readlink target starts with the keg's cellar prefix, remove it.
Missing paths and non-symlinks are skipped. -/
def unlinkDir (targetDir cellarName : GoPath) (f : FS) : List GoPath → FS
  | [] => f
  | rel :: rest =>
    match f (targetDir ++ rel) with
    | some (FsEntry.symlink t) =>
      if underDir cellarName t then
        unlinkDir targetDir cellarName
          (fun q => if q = targetDir ++ rel then none else f q) rest
      else unlinkDir targetDir cellarName f rest
    | _ => unlinkDir targetDir cellarName f rest

/-- The inner loop of `Client.Unlink` over the documented link dirs for a
single version directory `kegVer` of the keg. -/
def unlinkDirsLoop (pfx cellarName kegVer : GoPath) (walkFiles : GoPath → List GoPath)
    (f : FS) : List String → FS
  | [] => f
  | d :: rest =>
    unlinkDirsLoop pfx cellarName kegVer walkFiles
      (unlinkDir (pfx ++ [d]) cellarName f (walkFiles (kegVer ++ [d]))) rest

/-- The outer loop of `Client.Unlink` over the keg's version
directories. -/
def unlinkVersionsLoop (cellar pfx : GoPath) (name : String)
    (walkFiles : GoPath → List GoPath) (darwin : Bool) (f : FS) : List String → FS
  | [] => f
  | v :: rest =>
    unlinkVersionsLoop cellar pfx name walkFiles darwin
      (unlinkDirsLoop pfx (cellar ++ [name]) (cellar ++ [name, v]) walkFiles f
        (linkDirsList darwin)) rest

/-- `Client.Unlink` from linker.go lines 190-225: remove the `opt/<name>`
link when it is a symlink, then sweep the documented link dirs of every
version directory. -/
def unlinkModel (cellar pfx : GoPath) (name : String) (versions : List String)
    (walkFiles : GoPath → List GoPath) (darwin : Bool) (fs : FS) : FS :=
  unlinkVersionsLoop cellar pfx name walkFiles darwin
    (match fs (pfx ++ ["opt", name]) with
     | some (FsEntry.symlink _) =>
        fun q => if q = pfx ++ ["opt", name] then none else fs q
     | _ => fs)
    versions

/-- The frame relation: away from the excluded path, `f` agrees with
`fs` except where it removed a symlink whose target lies strictly inside
the keg's cellar directory. -/
def RemovedOnlyExc (exc cellarName : GoPath) (fs f : FS) : Prop :=
  ∀ q, q ≠ exc →
    f q = fs q ∨
    (f q = none ∧ ∃ t, fs q = some (FsEntry.symlink t) ∧ underDir cellarName t = true)

theorem unlinkDir_preserves (exc cellarName : GoPath) (fs : FS) :
    ∀ (rels : List GoPath) (targetDir : GoPath) (f : FS),
      RemovedOnlyExc exc cellarName fs f →
      RemovedOnlyExc exc cellarName fs (unlinkDir targetDir cellarName f rels) := by
  intro rels
  induction rels with
  | nil => intro td f hf; exact hf
  | cons rel rest ih =>
    intro td f hf
    rw [unlinkDir]
    cases hcur : f (td ++ rel) with
    | none => exact ih td f hf
    | some entry =>
      cases entry with
      | file => exact ih td f hf
      | symlink t =>
        dsimp only
        by_cases hu : underDir cellarName t = true
        · rw [if_pos hu]
          apply ih
          intro q hq
          by_cases hqp : q = td ++ rel
          · right
            refine ⟨by simp [hqp], t, ?_, hu⟩
            rcases hf q hq with heq | ⟨hnone, -⟩
            · rw [← heq, hqp, hcur]
            · rw [hqp] at hnone; rw [hnone] at hcur; exact absurd hcur (by simp)
          · have : (fun q => if q = td ++ rel then none else f q) q = f q := by
              simp [hqp]
            rw [this]
            exact hf q hq
        · rw [if_neg hu]
          exact ih td f hf

theorem unlinkDirsLoop_preserves (exc cellarName : GoPath) (fs : FS) :
    ∀ (ds : List String) (pfx kegVer : GoPath) (walkFiles : GoPath → List GoPath) (f : FS),
      RemovedOnlyExc exc cellarName fs f →
      RemovedOnlyExc exc cellarName fs (unlinkDirsLoop pfx cellarName kegVer walkFiles f ds) := by
  intro ds
  induction ds with
  | nil => intro pfx kegVer w f hf; exact hf
  | cons d rest ih =>
    intro pfx kegVer w f hf
    rw [unlinkDirsLoop]
    exact ih pfx kegVer w _ (unlinkDir_preserves exc cellarName fs _ _ f hf)

theorem unlinkVersionsLoop_preserves (exc : GoPath) (cellar pfx : GoPath) (name : String)
    (fs : FS) :
    ∀ (vs : List String) (walkFiles : GoPath → List GoPath) (darwin : Bool) (f : FS),
      RemovedOnlyExc exc (cellar ++ [name]) fs f →
      RemovedOnlyExc exc (cellar ++ [name]) fs
        (unlinkVersionsLoop cellar pfx name walkFiles darwin f vs) := by
  intro vs
  induction vs with
  | nil => intro w darwin f hf; exact hf
  | cons v rest ih =>
    intro w darwin f hf
    rw [unlinkVersionsLoop]
    exact ih w darwin _ (unlinkDirsLoop_preserves exc (cellar ++ [name]) fs _ pfx _ w f hf)

/-- C7: `Unlink <name>` changes, under the prefix's documented top-level
subdirectories, only paths holding symlinks whose readlink target lies
strictly inside `<Cellar>/<name>/`, and its only change there is removing
such a symlink; every other file or symlink in those subtrees — including
symlinks owned by other packages — is left unchanged.  (The `opt/<name>`
link, which lives outside those subtrees, is also removed.) -/
theorem c7_unlink_frame :
    ∀ (cellar pfx : GoPath) (name : String) (versions : List String)
      (walkFiles : GoPath → List GoPath) (darwin : Bool) (fs : FS) (p : GoPath),
      (∃ d ∈ linkDirsList darwin, (pfx ++ [d]) <+: p) →
      unlinkModel cellar pfx name versions walkFiles darwin fs p ≠ fs p →
      unlinkModel cellar pfx name versions walkFiles darwin fs p = none ∧
        ∃ t, fs p = some (FsEntry.symlink t) ∧ underDir (cellar ++ [name]) t = true := by
  intro cellar pfx name versions walkFiles darwin fs p hsub hne
  obtain ⟨d, hd, hdp⟩ := hsub
  have hpopt : p ≠ pfx ++ ["opt", name] := by
    intro hpe
    rw [hpe] at hdp
    have h1 : [d] <+: ["opt", name] := (List.prefix_append_right_inj pfx).mp hdp
    have h2 : d = "opt" := (List.cons_prefix_cons.mp h1).1
    subst h2
    cases darwin <;> simp [linkDirsList] at hd
  have hinit : RemovedOnlyExc (pfx ++ ["opt", name]) (cellar ++ [name]) fs
      (match fs (pfx ++ ["opt", name]) with
       | some (FsEntry.symlink _) =>
          fun q => if q = pfx ++ ["opt", name] then none else fs q
       | _ => fs) := by
    intro q hq
    cases hopt : fs (pfx ++ ["opt", name]) with
    | none => left; rfl
    | some entry =>
      cases entry with
      | file => left; rfl
      | symlink t => left; simp [hq]
  have hfinal := unlinkVersionsLoop_preserves (pfx ++ ["opt", name]) cellar pfx name fs
    versions walkFiles darwin _ hinit
  rcases hfinal p hpopt with heq | ⟨hnone, t, hsym, hund⟩
  · exact absurd (by rw [unlinkModel]; exact heq) hne
  · refine ⟨by rw [unlinkModel]; exact hnone, t, hsym, hund⟩

/-- Witness for C7: a concrete prefix tree holding one symlink owned by
the keg being unlinked and one owned by another keg; after unlink the
first path is removed and implied to have been a keg-owned symlink. -/
theorem c7_unlink_frame_witness :
    unlinkModel ["", "usr", "local", "Cellar"] ["", "usr", "local"] "foo" ["1.0"]
        (fun src => if src = ["", "usr", "local", "Cellar", "foo", "1.0", "bin"]
                    then [["footool"]] else [])
        false
        (fun q =>
          if q = ["", "usr", "local", "bin", "footool"] then
            some (FsEntry.symlink ["", "usr", "local", "Cellar", "foo", "1.0", "bin", "footool"])
          else if q = ["", "usr", "local", "bin", "bartool"] then
            some (FsEntry.symlink ["", "usr", "local", "Cellar", "bar", "2.0", "bin", "bartool"])
          else none)
        ["", "usr", "local", "bin", "footool"] = none ∧
      ∃ t, (fun q : GoPath =>
          if q = ["", "usr", "local", "bin", "footool"] then
            some (FsEntry.symlink ["", "usr", "local", "Cellar", "foo", "1.0", "bin", "footool"])
          else if q = ["", "usr", "local", "bin", "bartool"] then
            some (FsEntry.symlink ["", "usr", "local", "Cellar", "bar", "2.0", "bin", "bartool"])
          else none) ["", "usr", "local", "bin", "footool"]
          = some (FsEntry.symlink t) ∧
        underDir (["", "usr", "local", "Cellar"] ++ ["foo"]) t = true :=
  c7_unlink_frame ["", "usr", "local", "Cellar"] ["", "usr", "local"] "foo" ["1.0"]
    (fun src => if src = ["", "usr", "local", "Cellar", "foo", "1.0", "bin"]
                then [["footool"]] else [])
    false
    (fun q =>
      if q = ["", "usr", "local", "bin", "footool"] then
        some (FsEntry.symlink ["", "usr", "local", "Cellar", "foo", "1.0", "bin", "footool"])
      else if q = ["", "usr", "local", "bin", "bartool"] then
        some (FsEntry.symlink ["", "usr", "local", "Cellar", "bar", "2.0", "bin", "bartool"])
      else none)
    ["", "usr", "local", "bin", "footool"]
    ⟨"bin", by simp [linkDirsList], by decide⟩
    (by decide)

end FastBrew

